import Mathlib

set_option maxHeartbeats 1000000

namespace Gno

/-- Author identity attached to a commit, as exposed by the object store.
In `src/src/stats.rs` the author of a commit is read with `commit.author()`;
`author.name()` and `author.email()` each yield `Option` values (`None` when
the stored bytes are missing or not valid UTF-8), which the code defaults
with `unwrap_or("")`. We keep the two raw optional strings here and apply
the defaulting in `canonical`. -/
structure Author where
  name : Option String
  email : Option String
deriving DecidableEq

/-- A commit object in the store: the list of parent commit ids together with
its author data. `author = none` models the case where the commit object can
be walked but its author cannot be resolved (the `if let Ok(commit) =
repo.find_commit(oid)` in `get_contributor_count` failing), which the source
tolerates by skipping identity aggregation for that commit. -/
structure Commit where
  parents : List Nat
  author : Option Author
deriving DecidableEq

/-- A git reference: a name and an optional direct target commit id.
`target = none` models `reference.target()` returning `None` (e.g. a symbolic
reference), which both walks in `src/src/stats.rs` skip silently. -/
structure GitRef where
  name : String
  target : Option Nat
deriving DecidableEq

/-- The read-only repository state used by `src/src/stats.rs`: the references
(`repo.references()`) and the commit object store (`repo.find_commit` /
the revwalk's object reads), modelled as an association list from commit id
to commit object. Commit ids are opaque; we use `Nat`. -/
structure Repository where
  refs : List GitRef
  store : List (Nat × Commit)
deriving DecidableEq

/-- Traversal-level failure: a commit object committed to the work list is
missing or corrupt, the `let oid = oid?` propagation path in both walks
(`git2::Error` in the source). -/
inductive WalkError where
  | missingObject
deriving DecidableEq

/-- Lookup of a commit object by id in the store (the object-store read behind
libgit2's revwalk and `repo.find_commit`). -/
def findCommit : List (Nat × Commit) → Nat → Option Commit
  | [], _ => none
  | (k, c) :: rest, oid => if k = oid then some c else findCommit rest oid

/-- Canonical contributor key, from `format!("{} <{}>", name, email)` with
`name`/`email` already defaulted by `unwrap_or("")` in the source. -/
def canonical (a : Author) : String :=
  a.name.getD "" ++ " <" ++ a.email.getD "" ++ ">"

/-- Contributor key derived for a commit id, if any: `none` when the commit
object cannot be found (`repo.find_commit` fails, tolerated by the source) or
its author cannot be resolved; otherwise the canonical string. -/
def identOf (store : List (Nat × Commit)) (oid : Nat) : Option String :=
  match findCommit store oid with
  | some c =>
      match c.author with
      | some a => some (canonical a)
      | none => none
  | none => none

/-- Head collection loop shared by `get_total_commits` and
`get_contributor_count` (`src/src/stats.rs` lines 13-18 and 57-62): every
reference contributes its target when it has one; references without a
resolvable target are skipped. -/
def collectHeads (repo : Repository) : List Nat :=
  repo.refs.filterMap GitRef.target

/-- Element of the work list selected by a pop discipline `pick`; the index is
reduced modulo the length so that any function is a valid discipline. -/
def chosen (pick : List Nat → Finset Nat → Nat) (l : List Nat) (v : Finset Nat) : Nat :=
  l.getD (pick l v % l.length) 0

/-- Work list remaining after removing the element selected by `pick`. -/
def remaining (pick : List Nat → Finset Nat → Nat) (l : List Nat) (v : Finset Nat) : List Nat :=
  l.eraseIdx (pick l v % l.length)

/-- Keys present in the object store; used only as a termination measure for
the walk. -/
def storeKeys (store : List (Nat × Commit)) : Finset Nat :=
  (store.map Prod.fst).toFinset

/-- Work-list traversal of the ancestry graph, parametrised by the pop
discipline `pick` (stack, queue, or any other order). This is the walk that
libgit2's revwalk performs for `src/src/stats.rs` (seeded with all heads,
dedup via the visited set, parents pushed for each newly visited commit) and
the walk the spec describes in section 4.2. It returns the sequence of
distinct commit ids emitted, or a traversal-level error when an object that
reached the work list cannot be read from the store. -/
def walkList (store : List (Nat × Commit)) (pick : List Nat → Finset Nat → Nat) :
    List Nat → Finset Nat → Except WalkError (List Nat)
  | [], _ => .ok []
  | x :: xs, visited =>
      if hv : chosen pick (x :: xs) visited ∈ visited then
        walkList store pick (remaining pick (x :: xs) visited) visited
      else
        match hfc : findCommit store (chosen pick (x :: xs) visited) with
        | none => .error .missingObject
        | some c =>
            (walkList store pick (c.parents ++ remaining pick (x :: xs) visited)
                (insert (chosen pick (x :: xs) visited) visited)).map
              (fun rest => chosen pick (x :: xs) visited :: rest)
termination_by l v => ((storeKeys store \ v).card, l.length)
decreasing_by
  · apply Prod.Lex.right
    have hlen : pick (x :: xs) visited % (x :: xs).length < (x :: xs).length :=
      Nat.mod_lt _ (Nat.succ_pos _)
    have := List.length_eraseIdx_add_one hlen
    simp only [remaining]
    omega
  · apply Prod.Lex.left
    have hmem : ∀ (s : List (Nat × Commit)) (i : Nat) (c : Commit),
        findCommit s i = some c → i ∈ s.map Prod.fst := by
      intro s
      induction s with
      | nil => intro i c h; simp [findCommit] at h
      | cons hd tl ih =>
        intro i c h
        simp only [findCommit] at h
        by_cases hk : hd.1 = i
        · simp [hk]
        · rcases hd with ⟨k, c0⟩
          simp only [hk, if_neg] at h
          simp only [List.map_cons, List.mem_cons]
          exact Or.inr (ih i c h)
    have hidK : chosen pick (x :: xs) visited ∈ storeKeys store := by
      rw [storeKeys, List.mem_toFinset]
      exact hmem _ _ _ hfc
    apply Finset.card_lt_card
    rw [Finset.ssubset_iff_of_subset
      (Finset.sdiff_subset_sdiff (Finset.Subset.refl _) (Finset.subset_insert _ _))]
    refine ⟨chosen pick (x :: xs) visited, ?_, ?_⟩
    · exact Finset.mem_sdiff.mpr ⟨hidK, hv⟩
    · simp

/-- Pop discipline that always removes the front of the work list; used as the
concrete discipline of the source-level walk (the traversal order of the
source's revwalk under `Sort::NONE` is unspecified, and by
`gno_c8_worklist_order_immaterial` the choice does not affect any result). -/
def pickZero : List Nat → Finset Nat → Nat := fun _ _ => 0

/-- The revwalk of `src/src/stats.rs`: pushed with all heads, iterated to
yield each reachable commit id exactly once, failing when an object cannot be
read mid-walk (`let oid = oid?`). -/
def revwalk (store : List (Nat × Commit)) (heads : List Nat) : Except WalkError (List Nat) :=
  walkList store pickZero heads ∅

/-- Counting loop of `get_total_commits` (`src/src/stats.rs` lines 27-32):
`if visited.insert(oid) { count += 1 }` over the emitted ids. -/
def countLoop : List Nat → Finset Nat → Nat → Nat
  | [], _, count => count
  | oid :: rest, visited, count =>
      if oid ∈ visited then countLoop rest visited count
      else countLoop rest (insert oid visited) (count + 1)

/-- Aggregation loop of `get_contributor_count` (`src/src/stats.rs` lines
71-81): for each newly visited id, try `find_commit`; on success default the
author name/email with `unwrap_or("")` and insert the canonical string; on
failure skip identity aggregation for that commit. -/
def contribLoop (store : List (Nat × Commit)) :
    List Nat → Finset Nat → Finset String → Finset String
  | [], _, contributors => contributors
  | oid :: rest, visited, contributors =>
      if oid ∈ visited then contribLoop store rest visited contributors
      else
        contribLoop store rest (insert oid visited)
          (match findCommit store oid with
            | some c =>
                match c.author with
                | some a => insert (canonical a) contributors
                | none => contributors
            | none => contributors)

/-- Embedding of `get_total_commits` (`src/src/stats.rs` lines 5-35). -/
def get_total_commits (repo : Repository) : Except WalkError Nat :=
  match revwalk repo.store (collectHeads repo) with
  | .error e => .error e
  | .ok oids => .ok (countLoop oids ∅ 0)

/-- Embedding of `get_contributor_count` (`src/src/stats.rs` lines 49-84). -/
def get_contributor_count (repo : Repository) : Except WalkError Nat :=
  match revwalk repo.store (collectHeads repo) with
  | .error e => .error e
  | .ok oids => .ok (contribLoop repo.store oids ∅ ∅).card

/-- Local-branch test: `repo.branches(Some(BranchType::Local))` enumerates
exactly the references in the `refs/heads/` namespace. -/
def isLocalBranch (r : GitRef) : Bool :=
  "refs/heads/".data.isPrefixOf r.name.data

/-- Embedding of `get_branch_count` (`src/src/stats.rs` lines 37-47): counts
the local branches only. -/
def get_branch_count (repo : Repository) : Except WalkError Nat :=
  .ok (repo.refs.filter isLocalBranch).length

/-- Spec-side generalisation of `get_total_commits` to an arbitrary work-list
pop discipline, following section 4.2 of the spec ("stack or queue — traversal
order is explicitly unordered"). `get_total_commits` is the instance at
`pickZero`. -/
def get_total_commits_any (pick : List Nat → Finset Nat → Nat) (repo : Repository) :
    Except WalkError Nat :=
  match walkList repo.store pick (collectHeads repo) ∅ with
  | .error e => .error e
  | .ok oids => .ok (countLoop oids ∅ 0)

/-- Spec-side generalisation of `get_contributor_count` to an arbitrary
work-list pop discipline; `get_contributor_count` is the instance at
`pickZero`. -/
def get_contributor_count_any (pick : List Nat → Finset Nat → Nat) (repo : Repository) :
    Except WalkError Nat :=
  match walkList repo.store pick (collectHeads repo) ∅ with
  | .error e => .error e
  | .ok oids => .ok (contribLoop repo.store oids ∅ ∅).card

/-- Ancestry reachability through the object store: `Reaches store a b` holds
when `b` is `a` or an iterated parent of `a` through commits present in the
store. -/
inductive Reaches (store : List (Nat × Commit)) (a : Nat) : Nat → Prop where
  | refl : Reaches store a a
  | step {b p : Nat} {c : Commit} : Reaches store a b → findCommit store b = some c →
      p ∈ c.parents → Reaches store a p

/-- Union of the ancestor sets of all heads: the set of commit ids reachable
from at least one head. -/
def reachableFrom (store : List (Nat × Commit)) (heads : List Nat) : Set Nat :=
  { b | ∃ a ∈ heads, Reaches store a b }

/-- Sample author used by the concrete test repositories. -/
def auth : Author := ⟨some "Alice", some "alice@example.com"⟩

/-- Shared-ancestry repository from the spec's test property: root commit
X = 0, branch heads Y = 1 and Z = 2 both with parent X. -/
def repoShared : Repository :=
  ⟨[⟨"refs/heads/branch_a", some 1⟩, ⟨"refs/heads/branch_b", some 2⟩],
   [(0, ⟨[], some auth⟩), (1, ⟨[0], some auth⟩), (2, ⟨[0], some auth⟩)]⟩

/-- Repository whose single commit has an author whose name and email are both
unreadable (invalid UTF-8), so the source defaults both to the empty string. -/
def repoInvalidAuthor : Repository :=
  ⟨[⟨"refs/heads/main", some 0⟩], [(0, ⟨[], some ⟨none, none⟩⟩)]⟩

/-- Repository whose head commit names a parent that is absent from the object
store: reading that parent mid-walk fails. -/
def repoMissingParent : Repository :=
  ⟨[⟨"refs/heads/main", some 0⟩], [(0, ⟨[1], some auth⟩)]⟩

/-- Repository with two commits by two different identities whose canonical
strings collide: both render as "A <a <b>". -/
def repoCollide : Repository :=
  ⟨[⟨"refs/heads/main", some 0⟩],
   [(0, ⟨[1], some ⟨some "A <a", some "b"⟩⟩), (1, ⟨[], some ⟨some "A", some "a <b"⟩⟩)]⟩

/-- Repository with no references and no commits. -/
def repoEmpty : Repository := ⟨[], []⟩

/-- Commit `i` of a linear history of `N` commits all authored by `a`: its
parent is `i + 1` except for the root commit `N - 1`. -/
def linCommit (N : Nat) (a : Author) (i : Nat) : Commit :=
  ⟨if i + 1 < N then [i + 1] else [], some a⟩

/-- Object store of the linear history of `N` commits authored by `a`. -/
def linStore (N : Nat) (a : Author) : List (Nat × Commit) :=
  (List.range N).map (fun i => (i, linCommit N a i))

/-- Repository holding a linear history of `N` commits authored by `a`,
reachable from exactly one reference pointing at the tip commit `0`. -/
def linRepo (N : Nat) (a : Author) : Repository :=
  ⟨[⟨"refs/heads/main", some 0⟩], linStore N a⟩

/-- Symbolic reference whose `target()` is `None`. -/
def headRef : GitRef := ⟨"HEAD", none⟩

/-- Repository with one local branch at commit 0 and an extra root commit 5
unreachable from any branch. -/
def repoTagBase : Repository :=
  ⟨[⟨"refs/heads/main", some 0⟩], [(0, ⟨[], some auth⟩), (5, ⟨[], some auth⟩)]⟩

/-- Tag reference pointing at the branch-unreachable commit 5 of
`repoTagBase`. -/
def tagRef : GitRef := ⟨"refs/tags/v1", some 5⟩

theorem walkList_nil (store : List (Nat × Commit)) (pick : List Nat → Finset Nat → Nat)
    (v : Finset Nat) : walkList store pick [] v = .ok [] := by
  rw [walkList]

theorem walkList_cons_mem (store : List (Nat × Commit)) (pick : List Nat → Finset Nat → Nat)
    (x : Nat) (xs : List Nat) (v : Finset Nat) (hv : chosen pick (x :: xs) v ∈ v) :
    walkList store pick (x :: xs) v = walkList store pick (remaining pick (x :: xs) v) v := by
  rw [walkList, dif_pos hv]

theorem walkList_cons_missing (store : List (Nat × Commit)) (pick : List Nat → Finset Nat → Nat)
    (x : Nat) (xs : List Nat) (v : Finset Nat) (hv : chosen pick (x :: xs) v ∉ v)
    (hfc : findCommit store (chosen pick (x :: xs) v) = none) :
    walkList store pick (x :: xs) v = .error .missingObject := by
  rw [walkList, dif_neg hv]
  split
  · rfl
  · next c heq => rw [hfc] at heq; exact absurd heq (by simp)

theorem walkList_cons_found (store : List (Nat × Commit)) (pick : List Nat → Finset Nat → Nat)
    (x : Nat) (xs : List Nat) (v : Finset Nat) (c : Commit) (hv : chosen pick (x :: xs) v ∉ v)
    (hfc : findCommit store (chosen pick (x :: xs) v) = some c) :
    walkList store pick (x :: xs) v =
      (walkList store pick (c.parents ++ remaining pick (x :: xs) v)
          (insert (chosen pick (x :: xs) v) v)).map
        (fun rest => chosen pick (x :: xs) v :: rest) := by
  rw [walkList, dif_neg hv]
  split
  · next heq => rw [hfc] at heq; exact absurd heq (by simp)
  · next c' heq =>
    rw [hfc] at heq
    cases heq
    rfl

theorem chosen_mem (pick : List Nat → Finset Nat → Nat) (x : Nat) (xs : List Nat)
    (v : Finset Nat) : chosen pick (x :: xs) v ∈ x :: xs := by
  have hj : pick (x :: xs) v % (x :: xs).length < (x :: xs).length :=
    Nat.mod_lt _ (Nat.succ_pos _)
  rw [chosen, List.getD_eq_getElem _ _ hj]
  exact List.getElem_mem hj

theorem remaining_sub (pick : List Nat → Finset Nat → Nat) (l : List Nat) (v : Finset Nat)
    (a : Nat) (ha : a ∈ remaining pick l v) : a ∈ l :=
  List.eraseIdx_subset _ _ ha

theorem mem_getD_or_eraseIdx :
    ∀ (l : List Nat) (j : Nat), j < l.length → ∀ a ∈ l, a = l.getD j 0 ∨ a ∈ l.eraseIdx j := by
  intro l
  induction l with
  | nil => intro j hj; simp at hj
  | cons x xs ih =>
    intro j hj a ha
    cases j with
    | zero =>
      rcases List.mem_cons.mp ha with rfl | hxs
      · exact Or.inl rfl
      · exact Or.inr hxs
    | succ j' =>
      rcases List.mem_cons.mp ha with rfl | hxs
      · exact Or.inr (List.mem_cons_self _ _)
      · have hj' : j' < xs.length := by simpa using Nat.lt_of_succ_lt_succ hj
        rcases ih j' hj' a hxs with h | h
        · exact Or.inl h
        · exact Or.inr (List.mem_cons_of_mem _ h)

theorem mem_chosen_or_remaining (pick : List Nat → Finset Nat → Nat) (x : Nat) (xs : List Nat)
    (v : Finset Nat) (a : Nat) (ha : a ∈ x :: xs) :
    a = chosen pick (x :: xs) v ∨ a ∈ remaining pick (x :: xs) v := by
  have hj : pick (x :: xs) v % (x :: xs).length < (x :: xs).length :=
    Nat.mod_lt _ (Nat.succ_pos _)
  simpa [chosen, remaining] using mem_getD_or_eraseIdx (x :: xs) _ hj a ha

theorem reaches_trans {store : List (Nat × Commit)} {a b d : Nat}
    (h1 : Reaches store a b) (h2 : Reaches store b d) : Reaches store a d := by
  induction h2 with
  | refl => exact h1
  | step _ hfc hp ih => exact .step ih hfc hp

theorem reaches_parent {store : List (Nat × Commit)} {a p : Nat} {c : Commit}
    (hfc : findCommit store a = some c) (hp : p ∈ c.parents) : Reaches store a p :=
  .step .refl hfc hp

theorem walkList_ok_spec (store : List (Nat × Commit)) (pick : List Nat → Finset Nat → Nat)
    (l : List Nat) (v : Finset Nat) :
    ∀ oids, walkList store pick l v = .ok oids →
      oids.Nodup
      ∧ (∀ b ∈ oids, b ∉ v)
      ∧ (∀ b ∈ oids, (findCommit store b).isSome)
      ∧ (∀ b ∈ oids, ∃ a ∈ l, Reaches store a b)
      ∧ (∀ a ∈ l, a ∈ v ∨ a ∈ oids)
      ∧ (∀ b ∈ oids, ∀ c, findCommit store b = some c → ∀ p ∈ c.parents,
          p ∈ v ∨ p ∈ oids) := by
  induction l, v using walkList.induct store pick with
  | case1 v =>
    intro oids h
    rw [walkList_nil] at h
    cases h
    refine ⟨List.nodup_nil, ?_, ?_, ?_, ?_, ?_⟩ <;> simp
  | case2 x xs visited hv ih =>
    intro oids h
    rw [walkList_cons_mem store pick x xs visited hv] at h
    obtain ⟨ihN, ihF, ihS, ihR, ihL, ihC⟩ := ih oids h
    refine ⟨ihN, ihF, ihS, ?_, ?_, ihC⟩
    · intro b hb
      obtain ⟨a, ha, hr⟩ := ihR b hb
      exact ⟨a, remaining_sub pick _ _ a ha, hr⟩
    · intro a ha
      rcases mem_chosen_or_remaining pick x xs visited a ha with rfl | ha'
      · exact Or.inl hv
      · exact ihL a ha'
  | case3 x xs visited hv hfc =>
    intro oids h
    rw [walkList_cons_missing store pick x xs visited hv hfc] at h
    cases h
  | case4 x xs visited hv c hfc ih =>
    intro oids h
    rw [walkList_cons_found store pick x xs visited c hv hfc] at h
    cases hw : walkList store pick (c.parents ++ remaining pick (x :: xs) visited)
        (insert (chosen pick (x :: xs) visited) visited) with
    | error e => rw [hw] at h; simp [Except.map] at h
    | ok t =>
      rw [hw] at h
      simp only [Except.map] at h
      cases h
      obtain ⟨ihN, ihF, ihS, ihR, ihL, ihC⟩ := ih t hw
      have hchNotT : chosen pick (x :: xs) visited ∉ t := by
        intro hch
        exact ihF _ hch (Finset.mem_insert_self _ _)
      have hfresh : ∀ b ∈ chosen pick (x :: xs) visited :: t, b ∉ visited := by
        intro b hb
        rcases List.mem_cons.mp hb with rfl | hbt
        · exact hv
        · intro hbv
          exact ihF b hbt (Finset.mem_insert_of_mem hbv)
      refine ⟨List.nodup_cons.mpr ⟨hchNotT, ihN⟩, hfresh, ?_, ?_, ?_, ?_⟩
      · intro b hb
        rcases List.mem_cons.mp hb with rfl | hbt
        · rw [hfc]; rfl
        · exact ihS b hbt
      · intro b hb
        rcases List.mem_cons.mp hb with rfl | hbt
        · exact ⟨chosen pick (x :: xs) visited, chosen_mem pick x xs visited, .refl⟩
        · obtain ⟨a, ha, hr⟩ := ihR b hbt
          rcases List.mem_append.mp ha with hpar | hrem
          · exact ⟨chosen pick (x :: xs) visited, chosen_mem pick x xs visited,
              reaches_trans (reaches_parent hfc hpar) hr⟩
          · exact ⟨a, remaining_sub pick _ _ a hrem, hr⟩
      · intro a ha
        rcases mem_chosen_or_remaining pick x xs visited a ha with rfl | ha'
        · exact Or.inr (List.mem_cons_self _ _)
        · rcases ihL a (List.mem_append_right _ ha') with hins | hat
          · rcases Finset.mem_insert.mp hins with rfl | hav
            · exact Or.inr (List.mem_cons_self _ _)
            · exact Or.inl hav
          · exact Or.inr (List.mem_cons_of_mem _ hat)
      · intro b hb c' hbc' p hp
        have hstep : p ∈ insert (chosen pick (x :: xs) visited) visited ∨ p ∈ t →
            p ∈ visited ∨ p ∈ chosen pick (x :: xs) visited :: t := by
          intro hcase
          rcases hcase with hins | hpt
          · rcases Finset.mem_insert.mp hins with rfl | hpv
            · exact Or.inr (List.mem_cons_self _ _)
            · exact Or.inl hpv
          · exact Or.inr (List.mem_cons_of_mem _ hpt)
        rcases List.mem_cons.mp hb with rfl | hbt
        · rw [hfc] at hbc'
          cases hbc'
          exact hstep (ihL p (List.mem_append_left _ hp))
        · exact hstep (ihC b hbt c' hbc' p hp)

theorem walkList_ok_of_present (store : List (Nat × Commit))
    (pick : List Nat → Finset Nat → Nat) (l : List Nat) (v : Finset Nat) :
    (∀ b, (∃ a ∈ l, Reaches store a b) → b ∉ v → (findCommit store b).isSome) →
    ∃ oids, walkList store pick l v = .ok oids := by
  induction l, v using walkList.induct store pick with
  | case1 v => exact fun _ => ⟨[], walkList_nil store pick v⟩
  | case2 x xs visited hv ih =>
    intro hsafe
    obtain ⟨t, ht⟩ := ih (fun b hb hbv =>
      hsafe b (by obtain ⟨a, ha, hr⟩ := hb; exact ⟨a, remaining_sub pick _ _ a ha, hr⟩) hbv)
    exact ⟨t, by rw [walkList_cons_mem store pick x xs visited hv]; exact ht⟩
  | case3 x xs visited hv hfc =>
    intro hsafe
    have := hsafe (chosen pick (x :: xs) visited)
      ⟨chosen pick (x :: xs) visited, chosen_mem pick x xs visited, .refl⟩ hv
    rw [hfc] at this
    simp at this
  | case4 x xs visited hv c hfc ih =>
    intro hsafe
    obtain ⟨t, ht⟩ := ih (by
      intro b hb hbv
      obtain ⟨a, ha, hr⟩ := hb
      have hbv' : b ∉ visited := fun hmem => hbv (Finset.mem_insert_of_mem hmem)
      rcases List.mem_append.mp ha with hpar | hrem
      · exact hsafe b ⟨chosen pick (x :: xs) visited, chosen_mem pick x xs visited,
          reaches_trans (reaches_parent hfc hpar) hr⟩ hbv'
      · exact hsafe b ⟨a, remaining_sub pick _ _ a hrem, hr⟩ hbv')
    refine ⟨chosen pick (x :: xs) visited :: t, ?_⟩
    rw [walkList_cons_found store pick x xs visited c hv hfc, ht]
    rfl

theorem walkList_reach_sub (store : List (Nat × Commit)) (pick : List Nat → Finset Nat → Nat)
    (l : List Nat) (oids : List Nat) (h : walkList store pick l ∅ = .ok oids)
    {a b : Nat} (ha : a ∈ l) (hr : Reaches store a b) : b ∈ oids := by
  obtain ⟨_, _, _, _, ihL, ihC⟩ := walkList_ok_spec store pick l ∅ oids h
  induction hr with
  | refl =>
    rcases ihL a ha with hmem | hmem
    · exact absurd hmem (Finset.not_mem_empty a)
    · exact hmem
  | step _ hfc hp ih =>
    rcases ihC _ ih _ hfc _ hp with hmem | hmem
    · exact absurd hmem (Finset.not_mem_empty _)
    · exact hmem

theorem walkList_mem_iff_reach (store : List (Nat × Commit))
    (pick : List Nat → Finset Nat → Nat) (l : List Nat) (oids : List Nat)
    (h : walkList store pick l ∅ = .ok oids) (b : Nat) :
    b ∈ oids ↔ b ∈ reachableFrom store l := by
  constructor
  · intro hb
    obtain ⟨_, _, _, ihR, _, _⟩ := walkList_ok_spec store pick l ∅ oids h
    exact ihR b hb
  · rintro ⟨a, ha, hr⟩
    exact walkList_reach_sub store pick l oids h ha hr

theorem walkList_error_of_missing (store : List (Nat × Commit))
    (pick : List Nat → Finset Nat → Nat) (l : List Nat) {b : Nat}
    (hreach : b ∈ reachableFrom store l) (hnone : findCommit store b = none) :
    walkList store pick l ∅ = .error .missingObject := by
  cases hw : walkList store pick l ∅ with
  | error e => cases e; rfl
  | ok oids =>
    exfalso
    obtain ⟨a, ha, hr⟩ := hreach
    have hb : b ∈ oids := walkList_reach_sub store pick l oids hw ha hr
    obtain ⟨_, _, ihS, _, _, _⟩ := walkList_ok_spec store pick l ∅ oids hw
    have := ihS b hb
    rw [hnone] at this
    simp at this

theorem walkList_ok_of_all_present (store : List (Nat × Commit))
    (pick : List Nat → Finset Nat → Nat) (l : List Nat)
    (hsafe : ∀ b ∈ reachableFrom store l, (findCommit store b).isSome) :
    ∃ oids, walkList store pick l ∅ = .ok oids :=
  walkList_ok_of_present store pick l ∅ (fun b hb _ => hsafe b hb)

theorem countLoop_eq :
    ∀ (oids : List Nat) (v : Finset Nat) (n : Nat), oids.Nodup → (∀ b ∈ oids, b ∉ v) →
      countLoop oids v n = n + oids.length := by
  intro oids
  induction oids with
  | nil => intro v n _ _; simp [countLoop]
  | cons oid rest ih =>
    intro v n hnd hfresh
    have hv : oid ∉ v := hfresh oid (List.mem_cons_self _ _)
    have hfresh' : ∀ b ∈ rest, b ∉ insert oid v := by
      intro b hb hins
      rcases Finset.mem_insert.mp hins with rfl | hbv
      · exact (List.nodup_cons.mp hnd).1 hb
      · exact hfresh b (List.mem_cons_of_mem _ hb) hbv
    rw [countLoop, if_neg hv, ih (insert oid v) (n + 1) (List.nodup_cons.mp hnd).2 hfresh']
    simp only [List.length_cons]
    omega

theorem contribLoop_eq (store : List (Nat × Commit)) :
    ∀ (oids : List Nat) (v : Finset Nat) (cs : Finset String), oids.Nodup →
      (∀ b ∈ oids, b ∉ v) →
      contribLoop store oids v cs = cs ∪ (oids.filterMap (identOf store)).toFinset := by
  intro oids
  induction oids with
  | nil => intro v cs _ _; simp [contribLoop]
  | cons oid rest ih =>
    intro v cs hnd hfresh
    have hv : oid ∉ v := hfresh oid (List.mem_cons_self _ _)
    have hfresh' : ∀ b ∈ rest, b ∉ insert oid v := by
      intro b hb hins
      rcases Finset.mem_insert.mp hins with rfl | hbv
      · exact (List.nodup_cons.mp hnd).1 hb
      · exact hfresh b (List.mem_cons_of_mem _ hb) hbv
    rw [contribLoop, if_neg hv]
    rcases hfc : findCommit store oid with _ | c
    · show contribLoop store rest (insert oid v) cs =
        cs ∪ ((oid :: rest).filterMap (identOf store)).toFinset
      have hid : identOf store oid = none := by simp [identOf, hfc]
      rw [ih (insert oid v) cs (List.nodup_cons.mp hnd).2 hfresh']
      simp only [List.filterMap_cons, hid]
    · obtain ⟨ps, au⟩ := c
      rcases au with _ | a
      · show contribLoop store rest (insert oid v) cs =
          cs ∪ ((oid :: rest).filterMap (identOf store)).toFinset
        have hid : identOf store oid = none := by simp [identOf, hfc]
        rw [ih (insert oid v) cs (List.nodup_cons.mp hnd).2 hfresh']
        simp only [List.filterMap_cons, hid]
      · show contribLoop store rest (insert oid v) (insert (canonical a) cs) =
          cs ∪ ((oid :: rest).filterMap (identOf store)).toFinset
        have hid : identOf store oid = some (canonical a) := by simp [identOf, hfc]
        rw [ih (insert oid v) (insert (canonical a) cs) (List.nodup_cons.mp hnd).2 hfresh']
        simp only [List.filterMap_cons, hid, List.toFinset_cons]
        ext y
        simp only [Finset.mem_union, Finset.mem_insert]
        tauto

theorem total_src_any (repo : Repository) :
    get_total_commits repo = get_total_commits_any pickZero repo := rfl

theorem contrib_src_any (repo : Repository) :
    get_contributor_count repo = get_contributor_count_any pickZero repo := rfl

theorem total_any_error (pick : List Nat → Finset Nat → Nat) (repo : Repository)
    (e : WalkError) (h : walkList repo.store pick (collectHeads repo) ∅ = .error e) :
    get_total_commits_any pick repo = .error e := by
  simp only [get_total_commits_any, h]

theorem contrib_any_error (pick : List Nat → Finset Nat → Nat) (repo : Repository)
    (e : WalkError) (h : walkList repo.store pick (collectHeads repo) ∅ = .error e) :
    get_contributor_count_any pick repo = .error e := by
  simp only [get_contributor_count_any, h]

theorem total_any_eq (pick : List Nat → Finset Nat → Nat) (repo : Repository)
    (oids : List Nat) (h : walkList repo.store pick (collectHeads repo) ∅ = .ok oids) :
    get_total_commits_any pick repo = .ok oids.length := by
  obtain ⟨hnd, _, _, _, _, _⟩ := walkList_ok_spec repo.store pick (collectHeads repo) ∅ oids h
  simp only [get_total_commits_any, h]
  rw [countLoop_eq oids ∅ 0 hnd (by simp)]
  simp

theorem contrib_any_eq (pick : List Nat → Finset Nat → Nat) (repo : Repository)
    (oids : List Nat) (h : walkList repo.store pick (collectHeads repo) ∅ = .ok oids) :
    get_contributor_count_any pick repo =
      .ok (oids.filterMap (identOf repo.store)).toFinset.card := by
  obtain ⟨hnd, _, _, _, _, _⟩ := walkList_ok_spec repo.store pick (collectHeads repo) ∅ oids h
  simp only [get_contributor_count_any, h]
  rw [contribLoop_eq repo.store oids ∅ ∅ hnd (by simp)]
  simp

theorem total_count_eq_ncard (repo : Repository) (n : Nat)
    (h : get_total_commits repo = .ok n) :
    n = (reachableFrom repo.store (collectHeads repo)).ncard := by
  rw [total_src_any] at h
  cases hw : walkList repo.store pickZero (collectHeads repo) ∅ with
  | error e => rw [total_any_error pickZero repo e hw] at h; cases h
  | ok oids =>
    rw [total_any_eq pickZero repo oids hw] at h
    cases h
    obtain ⟨hnd, _, _, _, _, _⟩ :=
      walkList_ok_spec repo.store pickZero (collectHeads repo) ∅ oids hw
    have hset : reachableFrom repo.store (collectHeads repo) = ↑oids.toFinset := by
      ext b
      simp only [Finset.coe_sort_coe, List.coe_toFinset, Set.mem_setOf_eq, List.mem_toFinset]
      exact (walkList_mem_iff_reach repo.store pickZero (collectHeads repo) oids hw b).symm
    rw [hset, Set.ncard_coe_Finset, List.toFinset_card_of_nodup hnd]

theorem pipelines_congr (r₁ r₂ : Repository) (hheads : collectHeads r₁ = collectHeads r₂)
    (hstore : r₁.store = r₂.store) :
    get_total_commits r₁ = get_total_commits r₂
    ∧ get_contributor_count r₁ = get_contributor_count r₂ := by
  constructor
  · simp only [get_total_commits, hheads, hstore]
  · simp only [get_contributor_count, hheads, hstore]

theorem revwalk_repoShared :
    walkList repoShared.store pickZero (collectHeads repoShared) ∅ = .ok [1, 0, 2] := by
  simp [walkList_nil, walkList_cons_mem, walkList_cons_missing, walkList_cons_found,
    chosen, remaining, pickZero, findCommit, repoShared, auth, Except.map, collectHeads,
    List.filterMap_cons]

theorem revwalk_repoInvalidAuthor :
    walkList repoInvalidAuthor.store pickZero (collectHeads repoInvalidAuthor) ∅ = .ok [0] := by
  simp [walkList_nil, walkList_cons_mem, walkList_cons_missing, walkList_cons_found,
    chosen, remaining, pickZero, findCommit, repoInvalidAuthor, Except.map, collectHeads,
    List.filterMap_cons]

theorem revwalk_repoCollide :
    walkList repoCollide.store pickZero (collectHeads repoCollide) ∅ = .ok [0, 1] := by
  simp [walkList_nil, walkList_cons_mem, walkList_cons_missing, walkList_cons_found,
    chosen, remaining, pickZero, findCommit, repoCollide, Except.map, collectHeads,
    List.filterMap_cons]

theorem findCommit_append (l₁ l₂ : List (Nat × Commit)) (i : Nat) :
    findCommit (l₁ ++ l₂) i =
      match findCommit l₁ i with
      | some c => some c
      | none => findCommit l₂ i := by
  induction l₁ with
  | nil => simp [findCommit]
  | cons hd tl ih =>
    rcases hd with ⟨k, c⟩
    by_cases hk : k = i <;> simp [findCommit, hk, ih]

theorem findCommit_map_range (g : Nat → Commit) :
    ∀ N i, findCommit ((List.range N).map (fun j => (j, g j))) i =
      if i < N then some (g i) else none := by
  intro N
  induction N with
  | zero => intro i; simp [findCommit]
  | succ N ih =>
    intro i
    rw [List.range_succ, List.map_append, findCommit_append, ih]
    by_cases h1 : i < N
    · simp [h1, Nat.lt_succ_of_lt h1]
    · by_cases h2 : i = N
      · subst h2
        simp [findCommit, Nat.lt_succ_self]
      · have h3 : ¬ i < N + 1 := by omega
        have h4 : ¬ N = i := fun hc => h2 hc.symm
        simp [h1, h3, findCommit, h4]

theorem lin_findCommit (N : Nat) (a : Author) (i : Nat) :
    findCommit (linStore N a) i = if i < N then some (linCommit N a i) else none :=
  findCommit_map_range (linCommit N a) N i

theorem lin_reach_lt (N : Nat) (a : Author) (hN : 0 < N) (b : Nat)
    (h : Reaches (linStore N a) 0 b) : b < N := by
  induction h with
  | refl => exact hN
  | step _ hfc hp ih =>
    rw [lin_findCommit, if_pos ih] at hfc
    cases hfc
    simp only [linCommit] at hp
    split at hp
    · next hlt =>
      rcases List.mem_singleton.mp hp with rfl
      exact hlt
    · exact absurd hp (List.not_mem_nil _)

theorem lin_lt_reach (N : Nat) (a : Author) :
    ∀ b, b < N → Reaches (linStore N a) 0 b := by
  intro b
  induction b with
  | zero => intro _; exact .refl
  | succ b ih =>
    intro hb1
    have hr : Reaches (linStore N a) 0 b := ih (by omega)
    refine .step hr (c := linCommit N a b) ?_ ?_
    · rw [lin_findCommit, if_pos (by omega)]
    · simp [linCommit, hb1]

theorem filterMap_eq_const_map (f : Nat → Option String) (x : String) :
    ∀ l : List Nat, (∀ i ∈ l, f i = some x) → l.filterMap f = l.map (fun _ => x) := by
  intro l
  induction l with
  | nil => intro _; rfl
  | cons y ys ih =>
    intro hf
    rw [List.map_cons, ← ih (fun i hi => hf i (List.mem_cons_of_mem _ hi))]
    simp only [List.filterMap_cons, hf y (List.mem_cons_self _ _)]

theorem map_const_toFinset (x : String) :
    ∀ l : List Nat, l ≠ [] → (l.map (fun _ => x)).toFinset = {x} := by
  intro l
  induction l with
  | nil => intro h; exact absurd rfl h
  | cons y ys ih =>
    intro _
    rcases eq_or_ne ys [] with rfl | hne
    · simp
    · rw [List.map_cons, List.toFinset_cons, ih hne]
      exact Finset.insert_eq_self.mpr (Finset.mem_singleton_self x)

/-- C1: for every set of heads collected from the repository's references, the
commit traversal counts each reachable commit exactly once even when multiple
heads share ancestry: `get_total_commits` returns the cardinality of the union
of the ancestor sets of all heads, with no double-counting. -/
theorem gno_c1_commit_count_is_card_of_reachable_union (repo : Repository) (n : Nat)
    (h : get_total_commits repo = .ok n) :
    n = (reachableFrom repo.store (collectHeads repo)).ncard :=
  total_count_eq_ncard repo n h

/-- Witness for C1 at the spec's shared-ancestry example: branch A holds
commits {X = 0, Y = 1}, branch B holds {X = 0, Z = 2}, and the commit count is
3 (X counted once), not 4. -/
theorem gno_c1_witness :
    get_total_commits repoShared = .ok 3
    ∧ 3 = (reachableFrom repoShared.store (collectHeads repoShared)).ncard := by
  have h : get_total_commits repoShared = .ok 3 := by
    rw [total_src_any, total_any_eq pickZero repoShared [1, 0, 2] revwalk_repoShared]
    rfl
  exact ⟨h, gno_c1_commit_count_is_card_of_reachable_union repoShared 3 h⟩

/-- C2 counterexample: in `repoInvalidAuthor` the only commit's author name and
email are both unreadable, yet the source defaults them to "" and inserts the
identity " <>" into the contributor set, so the contributor count is 1, not
the 0 the claim's "contributes nothing to unique_contributor_count" demands. -/
theorem gno_c2_counterexample :
    get_total_commits repoInvalidAuthor = .ok 1
    ∧ get_contributor_count repoInvalidAuthor = .ok 1
    ∧ get_contributor_count repoInvalidAuthor ≠ .ok 0 := by
  have h2 : get_contributor_count repoInvalidAuthor = .ok 1 := by
    rw [contrib_src_any, contrib_any_eq pickZero repoInvalidAuthor [0] revwalk_repoInvalidAuthor]
    have hc : (([0] : List Nat).filterMap (identOf repoInvalidAuthor.store)).toFinset.card = 1 :=
      by decide
    rw [hc]
  refine ⟨?_, h2, ?_⟩
  · rw [total_src_any, total_any_eq pickZero repoInvalidAuthor [0] revwalk_repoInvalidAuthor]
    rfl
  · rw [h2]
    simp

/-- C2 amended: every commit emitted by the walk is counted in
`unique_commit_count` regardless of its author data; a commit whose author
cannot be resolved at all (the `find_commit` failure the source tolerates,
`identOf = none`) contributes nothing to the contributor set; but a commit
whose author name or email fields are individually missing or invalid is NOT
excluded: it is keyed under the empty-string fallback identity " <>". -/
theorem gno_c2_amended_author_handling (repo : Repository) (oids : List Nat)
    (h : walkList repo.store pickZero (collectHeads repo) ∅ = .ok oids) :
    get_total_commits repo = .ok oids.length
    ∧ get_contributor_count repo = .ok (oids.filterMap (identOf repo.store)).toFinset.card
    ∧ (∀ b c, findCommit repo.store b = some c → c.author = none →
        identOf repo.store b = none)
    ∧ (∀ b c a, findCommit repo.store b = some c → c.author = some a → a.name = none →
        a.email = none → identOf repo.store b = some " <>") := by
  refine ⟨by rw [total_src_any]; exact total_any_eq pickZero repo oids h,
    by rw [contrib_src_any]; exact contrib_any_eq pickZero repo oids h, ?_, ?_⟩
  · intro b c hfc hau
    simp [identOf, hfc, hau]
  · intro b c a hfc hau hn he
    simp only [identOf, hfc, hau, canonical, hn, he, Option.getD_none]
    decide

/-- Witness for C2's amended statement at `repoInvalidAuthor`. -/
theorem gno_c2_witness :
    walkList repoInvalidAuthor.store pickZero (collectHeads repoInvalidAuthor) ∅ = .ok [0]
    ∧ get_total_commits repoInvalidAuthor = .ok [0].length :=
  ⟨revwalk_repoInvalidAuthor,
    (gno_c2_amended_author_handling repoInvalidAuthor [0] revwalk_repoInvalidAuthor).1⟩

/-- C3: a failure to read a commit object already committed to the work list is
propagated to the caller as a traversal-level error by both the commit-count
walk and the contributor-count walk; no partial aggregate is returned. -/
theorem gno_c3_missing_object_aborts_both_walks (repo : Repository) (a b : Nat)
    (ha : a ∈ collectHeads repo) (hr : Reaches repo.store a b)
    (hb : findCommit repo.store b = none) :
    get_total_commits repo = .error .missingObject
    ∧ get_contributor_count repo = .error .missingObject := by
  have hw := walkList_error_of_missing repo.store pickZero (collectHeads repo) ⟨a, ha, hr⟩ hb
  exact ⟨by rw [total_src_any, total_any_error pickZero repo _ hw],
    by rw [contrib_src_any, contrib_any_error pickZero repo _ hw]⟩

/-- Witness for C3: in `repoMissingParent` the head commit 0 names the absent
parent 1, and both walks abort with the traversal-level error. -/
theorem gno_c3_witness :
    (0 ∈ collectHeads repoMissingParent)
    ∧ findCommit repoMissingParent.store 1 = none
    ∧ get_total_commits repoMissingParent = .error .missingObject
    ∧ get_contributor_count repoMissingParent = .error .missingObject := by
  have hreach : Reaches repoMissingParent.store 0 1 :=
    reaches_parent (c := ⟨[1], some auth⟩) rfl (by simp)
  have h := gno_c3_missing_object_aborts_both_walks repoMissingParent 0 1 (by decide) hreach rfl
  exact ⟨by decide, rfl, h.1, h.2⟩

/-- C4 counterexample: the canonical string key does not induce pairwise
equality of (name, email) for all strings: the two distinct identities
("A <a", "b") and ("A", "a <b") render the same key "A <a <b>", and in
`repoCollide` the two commits by these two different identities are counted as
a single contributor. -/
theorem gno_c4_counterexample :
    canonical ⟨some "A <a", some "b"⟩ = canonical ⟨some "A", some "a <b"⟩
    ∧ Author.mk (some "A <a") (some "b") ≠ Author.mk (some "A") (some "a <b")
    ∧ get_contributor_count repoCollide = .ok 1 := by
  refine ⟨by decide, by decide, ?_⟩
  rw [contrib_src_any, contrib_any_eq pickZero repoCollide [0, 1] revwalk_repoCollide]
  have hc : (([0, 1] : List Nat).filterMap (identOf repoCollide.store)).toFinset.card = 1 :=
    by decide
  rw [hc]

/-- C4 amended: identical (name, email) pairs always produce identical keys;
among identities sharing a name, the key is injective in the email, and among
identities sharing an email, injective in the name (so the spec's test
properties hold); but the key is not injective on arbitrary pairs, because a
name or email containing " <" or ">" can make two distinct pairs collide. -/
theorem gno_c4_amended_identity_equality :
    (∀ n e₁ e₂ : String, canonical ⟨some n, some e₁⟩ = canonical ⟨some n, some e₂⟩ ↔ e₁ = e₂)
    ∧ (∀ n₁ n₂ e : String, canonical ⟨some n₁, some e⟩ = canonical ⟨some n₂, some e⟩ ↔ n₁ = n₂)
    ∧ ¬ (∀ a₁ a₂ : Author, canonical a₁ = canonical a₂ → a₁ = a₂) := by
  refine ⟨?_, ?_, ?_⟩
  · intro n e₁ e₂
    constructor
    · intro h
      have hd := congrArg String.data h
      simp only [canonical, Option.getD_some, String.data_append] at hd
      exact String.ext (List.append_cancel_left (List.append_cancel_right hd))
    · rintro rfl; rfl
  · intro n₁ n₂ e
    constructor
    · intro h
      have hd := congrArg String.data h
      simp only [canonical, Option.getD_some, String.data_append] at hd
      exact String.ext
        (List.append_cancel_right (List.append_cancel_right (List.append_cancel_right hd)))
    · rintro rfl; rfl
  · intro hinj
    have h := hinj ⟨some "A <a", some "b"⟩ ⟨some "A", some "a <b"⟩ (by decide)
    exact absurd h (by decide)

/-- C5: for a repository with zero references, both `get_total_commits` and
`get_contributor_count` return 0 without error. -/
theorem gno_c5_empty_refs_zero_counts (repo : Repository) (h : repo.refs = []) :
    get_total_commits repo = .ok 0 ∧ get_contributor_count repo = .ok 0 := by
  have hh : collectHeads repo = [] := by simp [collectHeads, h]
  have hw : walkList repo.store pickZero (collectHeads repo) ∅ = .ok [] := by
    rw [hh]
    exact walkList_nil _ _ _
  constructor
  · rw [total_src_any, total_any_eq pickZero repo [] hw]
    rfl
  · rw [contrib_src_any, contrib_any_eq pickZero repo [] hw]
    rfl

/-- Witness for C5 at the empty repository. -/
theorem gno_c5_witness :
    repoEmpty.refs = [] ∧ get_total_commits repoEmpty = .ok 0
    ∧ get_contributor_count repoEmpty = .ok 0 := by
  have h := gno_c5_empty_refs_zero_counts repoEmpty rfl
  exact ⟨rfl, h.1, h.2⟩

/-- C6: for every linear history of N ≥ 1 commits all authored by the same
identity and reachable from exactly one reference, the commit count is N and
the contributor count is 1. -/
theorem gno_c6_linear_history_counts (N : Nat) (a : Author) (hN : 0 < N) :
    get_total_commits (linRepo N a) = .ok N
    ∧ get_contributor_count (linRepo N a) = .ok 1 := by
  have hheads : collectHeads (linRepo N a) = [0] := by
    simp [collectHeads, linRepo, List.filterMap_cons]
  have hreach_iff : ∀ b, b ∈ reachableFrom (linStore N a) [0] ↔ b < N := by
    intro b
    constructor
    · rintro ⟨a', ha', hr⟩
      rcases List.mem_singleton.mp ha' with rfl
      exact lin_reach_lt N a hN b hr
    · intro hb
      exact ⟨0, List.mem_singleton.mpr rfl, lin_lt_reach N a b hb⟩
  have hsafe : ∀ b ∈ reachableFrom (linStore N a) [0], (findCommit (linStore N a) b).isSome := by
    intro b hb
    rw [lin_findCommit, if_pos ((hreach_iff b).mp hb)]
    rfl
  obtain ⟨oids, hw⟩ := walkList_ok_of_all_present (linStore N a) pickZero [0] hsafe
  have hw' : walkList (linRepo N a).store pickZero (collectHeads (linRepo N a)) ∅ = .ok oids := by
    rw [hheads]
    exact hw
  obtain ⟨hnd, _, _, _, _, _⟩ := walkList_ok_spec (linStore N a) pickZero [0] ∅ oids hw
  have hmem : ∀ b, b ∈ oids ↔ b < N := by
    intro b
    rw [walkList_mem_iff_reach (linStore N a) pickZero [0] oids hw b]
    exact hreach_iff b
  have hfin : oids.toFinset = Finset.range N := by
    ext b
    simp only [List.mem_toFinset, Finset.mem_range]
    exact hmem b
  have hlen : oids.length = N := by
    rw [← List.toFinset_card_of_nodup hnd, hfin, Finset.card_range]
  constructor
  · rw [total_src_any, total_any_eq pickZero (linRepo N a) oids hw', hlen]
  · rw [contrib_src_any, contrib_any_eq pickZero (linRepo N a) oids hw']
    have hconst : ∀ i ∈ oids, identOf (linRepo N a).store i = some (canonical a) := by
      intro i hi
      have hiN : i < N := (hmem i).mp hi
      simp [identOf, linRepo, lin_findCommit, hiN, linCommit]
    have hne : oids ≠ [] := by
      intro hnil
      have h0 : (0 : Nat) ∈ oids := (hmem 0).mpr hN
      rw [hnil] at h0
      exact List.not_mem_nil _ h0
    rw [filterMap_eq_const_map (identOf (linRepo N a).store) (canonical a) oids hconst,
      map_const_toFinset (canonical a) oids hne]
    simp

/-- Witness for C6 at N = 2. -/
theorem gno_c6_witness :
    (0 < 2) ∧ get_total_commits (linRepo 2 auth) = .ok 2
    ∧ get_contributor_count (linRepo 2 auth) = .ok 1 := by
  have h := gno_c6_linear_history_counts 2 auth (by decide)
  exact ⟨by decide, h.1, h.2⟩

/-- C7: a reference whose target cannot be resolved to a commit id contributes
no head and causes no error (both aggregate functions are unchanged by its
presence anywhere in the reference list), and a repository with zero
references yields an empty head set rather than an error. -/
theorem gno_c7_unresolvable_ref_skipped (r : GitRef) (hr : r.target = none)
    (refs₁ refs₂ : List GitRef) (store : List (Nat × Commit)) :
    get_total_commits ⟨refs₁ ++ r :: refs₂, store⟩ = get_total_commits ⟨refs₁ ++ refs₂, store⟩
    ∧ get_contributor_count ⟨refs₁ ++ r :: refs₂, store⟩ =
        get_contributor_count ⟨refs₁ ++ refs₂, store⟩
    ∧ collectHeads ⟨[], store⟩ = [] := by
  have hheads : collectHeads ⟨refs₁ ++ r :: refs₂, store⟩ =
      collectHeads ⟨refs₁ ++ refs₂, store⟩ := by
    simp [collectHeads, List.filterMap_append, List.filterMap_cons, hr]
  obtain ⟨h1, h2⟩ := pipelines_congr _ _ hheads rfl
  exact ⟨h1, h2, by simp [collectHeads]⟩

/-- Witness for C7: inserting the symbolic reference HEAD (with no direct
target) in front of `repoShared`'s references changes nothing. -/
theorem gno_c7_witness :
    headRef.target = none
    ∧ get_total_commits ⟨[] ++ headRef :: repoShared.refs, repoShared.store⟩ =
        get_total_commits ⟨[] ++ repoShared.refs, repoShared.store⟩ :=
  ⟨rfl, (gno_c7_unresolvable_ref_skipped headRef rfl [] repoShared.refs repoShared.store).1⟩

/-- C8: traversal order is immaterial: for every repository and every work-list
pop discipline, the generalised walk produces exactly the same
`unique_commit_count` and `unique_contributor_count` results (including the
error cases) as the source functions. -/
theorem gno_c8_worklist_order_immaterial (pick : List Nat → Finset Nat → Nat)
    (repo : Repository) :
    get_total_commits_any pick repo = get_total_commits repo
    ∧ get_contributor_count_any pick repo = get_contributor_count repo := by
  rw [total_src_any, contrib_src_any]
  by_cases hp : ∀ b ∈ reachableFrom repo.store (collectHeads repo),
      (findCommit repo.store b).isSome
  · obtain ⟨o₁, h₁⟩ := walkList_ok_of_all_present repo.store pick (collectHeads repo) hp
    obtain ⟨o₂, h₂⟩ := walkList_ok_of_all_present repo.store pickZero (collectHeads repo) hp
    obtain ⟨hnd₁, _, _, _, _, _⟩ :=
      walkList_ok_spec repo.store pick (collectHeads repo) ∅ o₁ h₁
    obtain ⟨hnd₂, _, _, _, _, _⟩ :=
      walkList_ok_spec repo.store pickZero (collectHeads repo) ∅ o₂ h₂
    have hiff : ∀ b, b ∈ o₁ ↔ b ∈ o₂ := fun b =>
      (walkList_mem_iff_reach repo.store pick (collectHeads repo) o₁ h₁ b).trans
        (walkList_mem_iff_reach repo.store pickZero (collectHeads repo) o₂ h₂ b).symm
    have hfin : o₁.toFinset = o₂.toFinset := by
      ext b
      simp only [List.mem_toFinset]
      exact hiff b
    constructor
    · rw [total_any_eq pick repo o₁ h₁, total_any_eq pickZero repo o₂ h₂,
        ← List.toFinset_card_of_nodup hnd₁, ← List.toFinset_card_of_nodup hnd₂, hfin]
    · rw [contrib_any_eq pick repo o₁ h₁, contrib_any_eq pickZero repo o₂ h₂]
      have hsets : (o₁.filterMap (identOf repo.store)).toFinset =
          (o₂.filterMap (identOf repo.store)).toFinset := by
        ext y
        simp only [List.mem_toFinset, List.mem_filterMap]
        constructor
        · rintro ⟨i, hi, hfi⟩
          exact ⟨i, (hiff i).mp hi, hfi⟩
        · rintro ⟨i, hi, hfi⟩
          exact ⟨i, (hiff i).mpr hi, hfi⟩
      rw [hsets]
  · push_neg at hp
    obtain ⟨b, hb, hnot⟩ := hp
    have hnone : findCommit repo.store b = none := Option.not_isSome_iff_eq_none.mp hnot
    have h₁ := walkList_error_of_missing repo.store pick (collectHeads repo) hb hnone
    have h₂ := walkList_error_of_missing repo.store pickZero (collectHeads repo) hb hnone
    constructor
    · rw [total_any_error pick repo _ h₁, total_any_error pickZero repo _ h₂]
    · rw [contrib_any_error pick repo _ h₁, contrib_any_error pickZero repo _ h₂]

/-- C9: the commit and contributor walks are seeded from the targets of every
reference in all namespaces, while the branch-count report counts only local
branches: appending a non-branch reference (such as a tag) leaves the branch
count unchanged, contributes its target to the head set, and the commit count
still equals the cardinality of the reachable set over all heads including
that tag, so the commits reachable from the tag are included. -/
theorem gno_c9_all_refs_seed_walk_branches_counted_separately (repo : Repository)
    (r : GitRef) (t : Nat) (h1 : isLocalBranch r = false) (h2 : r.target = some t) :
    get_branch_count ⟨repo.refs ++ [r], repo.store⟩ = get_branch_count repo
    ∧ t ∈ collectHeads ⟨repo.refs ++ [r], repo.store⟩
    ∧ ∀ n, get_total_commits ⟨repo.refs ++ [r], repo.store⟩ = .ok n →
        n = (reachableFrom repo.store (collectHeads ⟨repo.refs ++ [r], repo.store⟩)).ncard
        ∧ ∀ b, Reaches repo.store t b →
            b ∈ reachableFrom repo.store (collectHeads ⟨repo.refs ++ [r], repo.store⟩) := by
  have hmem : t ∈ collectHeads ⟨repo.refs ++ [r], repo.store⟩ := by
    simp [collectHeads, List.filterMap_append, List.filterMap_cons, h2]
  refine ⟨?_, hmem, ?_⟩
  · simp [get_branch_count, List.filter_append, h1]
  · intro n hn
    refine ⟨total_count_eq_ncard _ n hn, ?_⟩
    intro b hb
    exact ⟨t, hmem, hb⟩

/-- Witness for C9: adding the tag `refs/tags/v1` pointing at the
branch-unreachable commit 5 of `repoTagBase` leaves the branch count alone
while seeding the walk with commit 5. -/
theorem gno_c9_witness :
    isLocalBranch tagRef = false
    ∧ get_branch_count ⟨repoTagBase.refs ++ [tagRef], repoTagBase.store⟩ =
        get_branch_count repoTagBase
    ∧ 5 ∈ collectHeads ⟨repoTagBase.refs ++ [tagRef], repoTagBase.store⟩ := by
  have h := gno_c9_all_refs_seed_walk_branches_counted_separately repoTagBase tagRef 5
    (by decide) rfl
  exact ⟨by decide, h.1, h.2.1⟩

/-- C10: whenever both aggregate functions succeed on the same repository
state, the contributor count is at most the commit count: both walks visit the
same set of unique commits, and each visited commit adds at most one identity
to the contributor set. -/
theorem gno_c10_contributor_le_commit_count (repo : Repository) (n m : Nat)
    (h1 : get_total_commits repo = .ok n) (h2 : get_contributor_count repo = .ok m) :
    m ≤ n := by
  rw [total_src_any] at h1
  rw [contrib_src_any] at h2
  cases hw : walkList repo.store pickZero (collectHeads repo) ∅ with
  | error e =>
    rw [total_any_error pickZero repo e hw] at h1
    cases h1
  | ok oids =>
    rw [total_any_eq pickZero repo oids hw] at h1
    rw [contrib_any_eq pickZero repo oids hw] at h2
    cases h1
    cases h2
    calc (oids.filterMap (identOf repo.store)).toFinset.card
        ≤ (oids.filterMap (identOf repo.store)).length := List.toFinset_card_le _
      _ ≤ oids.length := List.length_filterMap_le _ _

/-- Witness for C10 at `repoShared`: 1 contributor against 3 commits. -/
theorem gno_c10_witness :
    get_total_commits repoShared = .ok 3 ∧ get_contributor_count repoShared = .ok 1
    ∧ 1 ≤ 3 := by
  have h1 : get_total_commits repoShared = .ok 3 := by
    rw [total_src_any, total_any_eq pickZero repoShared [1, 0, 2] revwalk_repoShared]
    rfl
  have h2 : get_contributor_count repoShared = .ok 1 := by
    rw [contrib_src_any, contrib_any_eq pickZero repoShared [1, 0, 2] revwalk_repoShared]
    have hc : (([1, 0, 2] : List Nat).filterMap (identOf repoShared.store)).toFinset.card = 1 :=
      by decide
    rw [hc]
  exact ⟨h1, h2, gno_c10_contributor_le_commit_count repoShared 3 1 h1 h2⟩

end Gno
